/-
Verification of the engram memory engine's adaptive tuner and Hebbian
co-activation graph against its specification.

The adaptive tuner is embedded from `src/engram/adaptive_tuning.py`.
Python floats are modelled as exact rationals (the spec's non-goals
explicitly exclude reproducing floating-point drift), wall-clock times as
rational parameters `now`, and Python dicts of changed parameters as
insertion-ordered association lists.

The Hebbian prototype is embedded from `src/test_hebbian.py`
(class `HebbianMemory`): co-activation counters keyed by the sorted id
pair, and the `hebbian_links` table as a partial map from ordered id
pairs to strengths.
-/
import Mathlib

namespace Engram

/-! ## Adaptive tuning: metrics (`AdaptiveMetrics` in adaptive_tuning.py) -/

/-- Performance metrics tracked for adaptive tuning, from the
`AdaptiveMetrics` dataclass. Counters are naturals; retrieval time and
the timestamp are rationals. -/
structure AdaptiveMetrics where
  total_recalls : ℕ
  successful_recalls : ℕ
  positive_rewards : ℕ
  negative_rewards : ℕ
  memories_forgotten : ℕ
  consolidation_cycles : ℕ
  total_retrieval_time : ℚ
  last_updated : ℚ
  deriving Repr, DecidableEq

/-- Fresh metrics object: all counters zero (dataclass defaults), created
at time `now` (`last_updated = field(default_factory=time.time)`). -/
def AdaptiveMetrics.init (now : ℚ) : AdaptiveMetrics :=
  { total_recalls := 0, successful_recalls := 0, positive_rewards := 0
    negative_rewards := 0, memories_forgotten := 0, consolidation_cycles := 0
    total_retrieval_time := 0, last_updated := now }

/-- `AdaptiveMetrics.hit_rate`: fraction of successful recalls; neutral 1.0
before any data. -/
def AdaptiveMetrics.hit_rate (m : AdaptiveMetrics) : ℚ :=
  if m.total_recalls = 0 then 1
  else (m.successful_recalls : ℚ) / (m.total_recalls : ℚ)

/-- `AdaptiveMetrics.reward_ratio`: positive / (positive + negative);
neutral 0.5 with no feedback. -/
def AdaptiveMetrics.reward_ratio (m : AdaptiveMetrics) : ℚ :=
  if m.positive_rewards + m.negative_rewards = 0 then 1/2
  else (m.positive_rewards : ℚ) / ((m.positive_rewards + m.negative_rewards : ℕ) : ℚ)

/-- `AdaptiveMetrics.forget_rate`: memories forgotten per consolidation
cycle; 0 with no cycles. -/
def AdaptiveMetrics.forget_rate (m : AdaptiveMetrics) : ℚ :=
  if m.consolidation_cycles = 0 then 0
  else (m.memories_forgotten : ℚ) / (m.consolidation_cycles : ℚ)

/-- `AdaptiveMetrics.avg_retrieval_time`: average seconds per recall. -/
def AdaptiveMetrics.avg_retrieval_time (m : AdaptiveMetrics) : ℚ :=
  if m.total_recalls = 0 then 0
  else m.total_retrieval_time / (m.total_recalls : ℚ)

/-! ## Adaptive tuning: configuration

`engram/config.py` itself is not part of the sources under `src/`; the
tuner only reads and writes the five fields below, whose defaults are
taken from the specification's configuration table (§3.4). -/

/-- The slice of `MemoryConfig` touched by the adaptive tuner.
Modelled from the spec: `engram/config.py` is not under `src/`; fields and
defaults follow spec §3.4 (mu1 = 0.1, mu2 = 0.005, alpha = 0.1,
min_activation = −8.0, context_weight = 1.0). -/
structure MemoryConfig where
  mu1 : ℚ
  mu2 : ℚ
  alpha : ℚ
  min_activation : ℚ
  context_weight : ℚ
  deriving Repr, DecidableEq

/-- Modelled from the spec: `MemoryConfig.default()` per the §3.4 table. -/
def MemoryConfig.default : MemoryConfig :=
  { mu1 := 1/10, mu2 := 1/200, alpha := 1/10
    min_activation := -8, context_weight := 1 }

/-! ## Adaptive tuning: the tuner (`AdaptiveTuner` in adaptive_tuning.py) -/

/-- State of an `AdaptiveTuner`: the configuration being tuned, the
constructor parameters, the accumulated metrics and the time of the last
adaptation (`_last_adaptation`). -/
structure AdaptiveTuner where
  config : MemoryConfig
  adaptation_rate : ℚ
  min_samples : ℕ
  adaptation_interval : ℚ
  metrics : AdaptiveMetrics
  last_adaptation : ℚ
  deriving Repr, DecidableEq

/-- `AdaptiveTuner.__init__` at time `now` (defaults
`adaptation_rate=0.05`, `min_samples=20`, `adaptation_interval=3600`). -/
def AdaptiveTuner.init (config : MemoryConfig) (adaptation_rate : ℚ := 1/20)
    (min_samples : ℕ := 20) (adaptation_interval : ℚ := 3600) (now : ℚ := 0) :
    AdaptiveTuner :=
  { config := config, adaptation_rate := adaptation_rate
    min_samples := min_samples, adaptation_interval := adaptation_interval
    metrics := AdaptiveMetrics.init now, last_adaptation := now }

/-- `AdaptiveTuner.record_recall`: bump `total_recalls`, bump
`successful_recalls` when the result list is non-empty, accumulate
latency, stamp `last_updated`. `results_len` is `len(results)`. -/
def AdaptiveTuner.record_recall (results_len : ℕ) (latency now : ℚ)
    (t : AdaptiveTuner) : AdaptiveTuner :=
  { t with metrics :=
    { t.metrics with
      total_recalls := t.metrics.total_recalls + 1
      successful_recalls :=
        if 0 < results_len then t.metrics.successful_recalls + 1
        else t.metrics.successful_recalls
      total_retrieval_time := t.metrics.total_retrieval_time + latency
      last_updated := now } }

/-- `AdaptiveTuner.record_reward`: bump the counter matching the polarity
string; any other polarity only refreshes `last_updated`. Stated on the
mutated `self.metrics`. -/
def AdaptiveMetrics.record_reward (polarity : String) (now : ℚ)
    (m : AdaptiveMetrics) : AdaptiveMetrics :=
  let m' :=
    if polarity = "positive" then
      { m with positive_rewards := m.positive_rewards + 1 }
    else if polarity = "negative" then
      { m with negative_rewards := m.negative_rewards + 1 }
    else m
  { m' with last_updated := now }

/-- `AdaptiveTuner.record_consolidation`. -/
def AdaptiveTuner.record_consolidation (n_forgotten : ℕ) (now : ℚ)
    (t : AdaptiveTuner) : AdaptiveTuner :=
  { t with metrics :=
    { t.metrics with
      consolidation_cycles := t.metrics.consolidation_cycles + 1
      memories_forgotten := t.metrics.memories_forgotten + n_forgotten
      last_updated := now } }

/-- `AdaptiveTuner.should_adapt` at wall time `now`:
`(total_recalls ≥ min_samples or consolidation_cycles ≥ 3) and
(now − _last_adaptation ≥ adaptation_interval)`. -/
def AdaptiveTuner.should_adapt (now : ℚ) (t : AdaptiveTuner) : Bool :=
  (decide (t.metrics.total_recalls ≥ t.min_samples) ||
    decide (t.metrics.consolidation_cycles ≥ 3)) &&
  decide (now - t.last_adaptation ≥ t.adaptation_interval)

/-- Rule 1 of `adapt` (hit rate → `min_activation`), lines 176–194.
Returns the updated config together with the entries it appends to
`changes`. -/
def rule1 (r hr : ℚ) (c : MemoryConfig) : MemoryConfig × List (String × ℚ) :=
  if hr < 3/5 then
    let nt := max (c.min_activation - |c.min_activation * r|) (-15)
    if nt ≠ c.min_activation then
      ({ c with min_activation := nt }, [("min_activation", nt)])
    else (c, [])
  else if hr > 9/10 then
    let nt := min (c.min_activation + |c.min_activation * r / 2|) (-5)
    if nt ≠ c.min_activation then
      ({ c with min_activation := nt }, [("min_activation", nt)])
    else (c, [])
  else (c, [])

/-- Rule 2 of `adapt` (reward ratio → `context_weight`), lines 196–204.
`feedback` is `positive_rewards + negative_rewards`. -/
def rule2 (r rr : ℚ) (feedback : ℕ) (c : MemoryConfig) :
    MemoryConfig × List (String × ℚ) :=
  if rr < 2/5 ∧ feedback > 5 then
    let nw := min (c.context_weight * (1 + r)) 3
    if nw ≠ c.context_weight then
      ({ c with context_weight := nw }, [("context_weight", nw)])
    else (c, [])
  else (c, [])

/-- Rule 3 of `adapt` (forget rate → `mu1`, `mu2`), lines 206–234. -/
def rule3 (r fr : ℚ) (cycles : ℕ) (c : MemoryConfig) :
    MemoryConfig × List (String × ℚ) :=
  if fr > 10 then
    let m1 := max (c.mu1 * (1 - r)) (1/100)
    let m2 := max (c.mu2 * (1 - r)) (1/10000)
    let s1 : MemoryConfig × List (String × ℚ) :=
      if m1 ≠ c.mu1 then ({ c with mu1 := m1 }, [("mu1", m1)]) else (c, [])
    if m2 ≠ c.mu2 then ({ s1.1 with mu2 := m2 }, s1.2 ++ [("mu2", m2)]) else s1
  else if fr < 2 ∧ cycles ≥ 5 then
    let m1 := min (c.mu1 * (1 + r)) (1/2)
    let m2 := min (c.mu2 * (1 + r)) (1/50)
    let s1 : MemoryConfig × List (String × ℚ) :=
      if m1 ≠ c.mu1 then ({ c with mu1 := m1 }, [("mu1", m1)]) else (c, [])
    if m2 ≠ c.mu2 then ({ s1.1 with mu2 := m2 }, s1.2 ++ [("mu2", m2)]) else s1
  else (c, [])

/-- Rule 4 of `adapt` (reward ratio → `alpha`), lines 236–245.
`pos` is `positive_rewards`. -/
def rule4 (r rr : ℚ) (pos : ℕ) (c : MemoryConfig) :
    MemoryConfig × List (String × ℚ) :=
  if rr > 7/10 ∧ pos ≥ 5 then
    let na := min (c.alpha * (1 + r / 2)) (3/10)
    if na ≠ c.alpha then ({ c with alpha := na }, [("alpha", na)])
    else (c, [])
  else (c, [])

/-- The body of `adapt` past the gate: the four rules applied in source
order, threading the config and concatenating the `changes` entries in
dict insertion order. -/
def adaptCore (r : ℚ) (m : AdaptiveMetrics) (c : MemoryConfig) :
    List (String × ℚ) × MemoryConfig :=
  let s1 := rule1 r m.hit_rate c
  let s2 := rule2 r m.reward_ratio (m.positive_rewards + m.negative_rewards) s1.1
  let s3 := rule3 r m.forget_rate m.consolidation_cycles s2.1
  let s4 := rule4 r m.reward_ratio m.positive_rewards s3.1
  (s1.2 ++ s2.2 ++ s3.2 ++ s4.2, s4.1)

/-- `AdaptiveTuner.adapt` at wall time `now`: returns the `changes` dict
(as an insertion-ordered association list) and the mutated tuner. When the
gate fails it returns `{}` without touching anything; otherwise it applies
the four rules and stamps `_last_adaptation = now`. -/
def AdaptiveTuner.adapt (now : ℚ) (t : AdaptiveTuner) :
    List (String × ℚ) × AdaptiveTuner :=
  if t.should_adapt now then
    let res := adaptCore t.adaptation_rate t.metrics t.config
    (res.1, { t with config := res.2, last_adaptation := now })
  else ([], t)

/-! ## Hebbian prototype (`HebbianMemory` in src/test_hebbian.py)

The prototype keeps the co-activation counters in an in-process
`defaultdict(int)` keyed by the sorted id pair, and the `hebbian_links`
SQLite table keyed by `(source_id, target_id)` with a `strength` column.
Both are modelled as total functions from string pairs, the table
partially (`Option`). -/

/-- State of a `HebbianMemory` instance relevant to co-activation:
`_coactivation` (pair → count, defaulting to 0) and the `hebbian_links`
table (ordered pair → strength, `none` when no row exists). -/
structure HebbianState where
  coact : String → String → ℕ
  links : String → String → Option ℚ

/-- Pointwise update of a two-argument map at one key pair. -/
def upd2 {α : Type} (f : String → String → α) (a b : String) (v : α) :
    String → String → α :=
  fun x y => if x = a ∧ y = b then v else f x y

/-- Python's `tuple(sorted([id1, id2]))`: the pair in ascending order. -/
def sortPair (a b : String) : String × String :=
  if a ≤ b then (a, b) else (b, a)

/-- `HebbianMemory._create_hebbian_link`: if no `(id1, id2)` row exists,
insert-or-ignore the rows `(id1, id2)` and `(id2, id1)`, each with
strength 1.0. The co-activation counters are untouched. -/
def createHebbianLink (s : HebbianState) (id1 id2 : String) : HebbianState :=
  if (s.links id1 id2).isSome then s
  else
    let l1 := if (s.links id1 id2).isSome then s.links
              else upd2 s.links id1 id2 (some 1)
    let l2 := if (l1 id2 id1).isSome then l1
              else upd2 l1 id2 id1 (some 1)
    { s with links := l2 }

/-- The body of `HebbianMemory.recall`'s loop for one pair `(id1, id2)`
drawn from `combinations(ids, 2)`: increment the counter of the sorted
pair and, exactly when it reaches the threshold
(`_hebbian_threshold = 3`), create the link. -/
def coactPair (s : HebbianState) (id1 id2 : String) : HebbianState :=
  let p := sortPair id1 id2
  let c := s.coact p.1 p.2 + 1
  let s' := { s with coact := upd2 s.coact p.1 p.2 c }
  if c = 3 then createHebbianLink s' id1 id2 else s'

/-- `itertools.combinations(ids, 2)`: ordered pairs of elements at
strictly increasing positions, in the iterator's order. -/
def combinations2 : List String → List (String × String)
  | [] => []
  | x :: xs => xs.map (fun y => (x, y)) ++ combinations2 xs

/-- Folding the per-pair step over an arbitrary pair list. -/
def foldPairs (s : HebbianState) (L : List (String × String)) : HebbianState :=
  L.foldl (fun st p => coactPair st p.1 p.2) s

/-- The Hebbian bookkeeping of one `HebbianMemory.recall` whose underlying
query returned `ids` (in order): run the per-pair step over
`combinations(ids, 2)`. -/
def recallStep (s : HebbianState) (ids : List String) : HebbianState :=
  foldPairs s (combinations2 ids)

/-- A fresh `HebbianMemory`: empty counters and an empty
`hebbian_links` table. -/
def initState : HebbianState :=
  { coact := fun _ _ => 0, links := fun _ _ => none }

/-- States of the prototype reachable by any sequence of adds and recalls
from a fresh instance. `add` does not touch counters or links, so steps
are recalls; result sets of the underlying `Memory.recall` carry no
duplicate ids (candidates are unified by id, spec §4.4 step 1). -/
inductive Reachable : HebbianState → Prop
  | init : Reachable initState
  | step {s : HebbianState} (ids : List String) (hnd : ids.Nodup)
      (hs : Reachable s) : Reachable (recallStep s ids)

/-! ## Canonical persistent co-activation store (spec §3.3, §4.5, §6)

`engram/store.py` and `engram/hebbian.py` are code of this repository that
is not under `src/`; only their tests (`src/tests/test_hebbian.py`) are.
The definitions below are therefore modelled from the spec. -/

/-- Modelled from the spec: the durable contents of the `hebbian_links`
table of the canonical store (spec §6): per ordered id pair a `strength`
column (`NULL`/0 for unlinked pairs) and, at the canonical (min, max) key,
a `coactivation_count` column (spec §3.3). Missing from `src/`:
`engram/store.py`. -/
structure StoreDB where
  coactivation_count : String → String → ℕ
  strength : String → String → Option ℚ

/-- Modelled from the spec: a live engine instance holds the durable
database plus ephemeral in-process session state (here: the ids of the
most recent recall, used by `reward` with omitted targets, spec §6); the
ephemeral part is discarded by `close()`. Missing from `src/`: the engine
class wiring in `engram/`. -/
structure EngineInstance where
  db : StoreDB
  last_recall_ids : List String

/-- Modelled from the spec: `close()` flushes and releases the storage
handle; what survives is exactly the durable database file. -/
def closeEngine (e : EngineInstance) : StoreDB := e.db

/-- Modelled from the spec: opening an engine over an existing database
file starts a fresh instance whose ephemeral state is empty. -/
def openEngine (d : StoreDB) : EngineInstance :=
  { db := d, last_recall_ids := [] }

/-- Modelled from the spec: `record_coactivation(ids[], threshold)`
(spec §4.5) for a single unordered pair — increment the persisted counter
at the canonical (min, max) key; when it crosses the threshold, materialize
the two link rows with strength 1.0. Missing from `src/`:
`engram/hebbian.py`. -/
def dbCoactPair (th : ℕ) (d : StoreDB) (id1 id2 : String) : StoreDB :=
  let p := sortPair id1 id2
  let c := d.coactivation_count p.1 p.2 + 1
  let d' := { d with coactivation_count := upd2 d.coactivation_count p.1 p.2 c }
  if c = th then
    let st := upd2 (upd2 d'.strength p.1 p.2 (some 1)) p.2 p.1 (some 1)
    { d' with strength := st }
  else d'

/-- Modelled from the spec: `record_coactivation` over every unordered
pair of distinct ids (spec §4.5). -/
def record_coactivation (d : StoreDB) (ids : List String) (th : ℕ) : StoreDB :=
  (combinations2 ids).foldl (fun db p => dbCoactPair th db p.1 p.2) d

/-- Modelled from the spec: §4.4 step 8 — a recall that returned `ids`
records their co-activation in the durable store and remembers the ids in
the ephemeral session state. -/
def engineRecall (th : ℕ) (e : EngineInstance) (ids : List String) :
    EngineInstance :=
  { db := record_coactivation e.db ids th, last_recall_ids := ids }

/-- A sequence of recalls against one engine instance. -/
def engineRun (th : ℕ) (e : EngineInstance) (qs : List (List String)) :
    EngineInstance :=
  qs.foldl (engineRecall th) e

/-- Modelled from the spec: `get_coactivation_stats` reads the persisted
counters straight from the durable table. -/
def get_coactivation_stats (d : StoreDB) : String → String → ℕ :=
  d.coactivation_count

/-! ## Auxiliary definitions used by the theorems -/

/-- Invariant of the prototype's `hebbian_links` table: rows are
symmetric with equal strength, never self-referencing, always of
strength 1.0, and only exist for pairs whose counter has reached the
threshold 3. -/
def LinkInv (s : HebbianState) : Prop :=
  (∀ i j, s.links i j = s.links j i) ∧
  (∀ i j, (s.links i j).isSome → i ≠ j) ∧
  (∀ i j v, s.links i j = some v → v = 1) ∧
  (∀ i j, (s.links i j).isSome →
    3 ≤ s.coact (sortPair i j).1 (sortPair i j).2)

/-- A tuner observing a 40% hit rate over 20 recalls, with default
configuration, `adaptation_rate = 0.05` and `adaptation_interval = 0`. -/
def tunerLowHit : AdaptiveTuner :=
  { config := MemoryConfig.default, adaptation_rate := 1/20, min_samples := 20
    adaptation_interval := 0
    metrics := { AdaptiveMetrics.init 0 with
                  total_recalls := 20, successful_recalls := 8 }
    last_adaptation := 0 }

/-- The same observations with `min_activation` already at the −15
clamp. -/
def tunerClampedLow : AdaptiveTuner :=
  { tunerLowHit with
    config := { MemoryConfig.default with min_activation := -15 } }

/-- A freshly constructed tuner with no recorded data. -/
def tunerFresh : AdaptiveTuner :=
  AdaptiveTuner.init MemoryConfig.default

/-- The prototype after one, two and three recalls each returning the
two memories `"a"` and `"b"`. -/
def hebbianOnce : HebbianState := recallStep initState ["a", "b"]

/-- Two co-recalls of `"a"` and `"b"`. -/
def hebbianTwice : HebbianState := recallStep hebbianOnce ["a", "b"]

/-- Three co-recalls of `"a"` and `"b"`: the counter reaches the
threshold 3. -/
def hebbianThrice : HebbianState := recallStep hebbianTwice ["a", "b"]

/-! ## Theorems: derived metrics (C9) and reward recording (C10) -/

/-- C9: when their denominators are zero the derived metrics return the
neutral defaults — `hit_rate() = 1.0` for `total_recalls = 0`,
`reward_ratio() = 0.5` for no feedback, `forget_rate() = 0.0` for no
consolidation cycles — and otherwise each equals the corresponding
ratio. -/
theorem derived_metrics_neutral_defaults (m : AdaptiveMetrics) :
    (m.total_recalls = 0 → m.hit_rate = 1) ∧
    (m.total_recalls ≠ 0 →
      m.hit_rate = (m.successful_recalls : ℚ) / (m.total_recalls : ℚ)) ∧
    (m.positive_rewards + m.negative_rewards = 0 → m.reward_ratio = 1/2) ∧
    (m.positive_rewards + m.negative_rewards ≠ 0 →
      m.reward_ratio = (m.positive_rewards : ℚ) /
        ((m.positive_rewards + m.negative_rewards : ℕ) : ℚ)) ∧
    (m.consolidation_cycles = 0 → m.forget_rate = 0) ∧
    (m.consolidation_cycles ≠ 0 →
      m.forget_rate = (m.memories_forgotten : ℚ) / (m.consolidation_cycles : ℚ)) := by
  refine ⟨?_, ?_, ?_, ?_, ?_, ?_⟩ <;> intro h <;>
    simp [AdaptiveMetrics.hit_rate, AdaptiveMetrics.reward_ratio,
      AdaptiveMetrics.forget_rate, h]

/-- Witness for C9: evaluated on a fresh metrics object and on 20 recalls
with 8 successes. -/
theorem derived_metrics_neutral_defaults_witness :
    (AdaptiveMetrics.init 0).hit_rate = 1 ∧
    (AdaptiveMetrics.init 0).reward_ratio = 1/2 ∧
    (AdaptiveMetrics.init 0).forget_rate = 0 ∧
    tunerLowHit.metrics.hit_rate = (8 : ℚ) / 20 := by
  refine ⟨(derived_metrics_neutral_defaults _).1 rfl,
    (derived_metrics_neutral_defaults _).2.2.1 rfl,
    (derived_metrics_neutral_defaults _).2.2.2.2.1 rfl, ?_⟩
  have h := (derived_metrics_neutral_defaults tunerLowHit.metrics).2.1 (by decide)
  simpa [tunerLowHit, AdaptiveMetrics.init] using h

/-- C10: for any polarity string other than `"positive"` and
`"negative"`, `record_reward` leaves every accumulated counter unchanged
and updates only the `last_updated` timestamp. -/
theorem record_reward_other_polarity (p : String) (now : ℚ)
    (m : AdaptiveMetrics) (h1 : p ≠ "positive") (h2 : p ≠ "negative") :
    m.record_reward p now = { m with last_updated := now } := by
  simp [AdaptiveMetrics.record_reward, h1, h2]

/-- Witness for C10: a `"neutral"` reward on a fresh metrics object. -/
theorem record_reward_other_polarity_witness :
    (AdaptiveMetrics.init 0).record_reward "neutral" 5 =
      { AdaptiveMetrics.init 0 with last_updated := 5 } :=
  record_reward_other_polarity "neutral" 5 (AdaptiveMetrics.init 0)
    (by decide) (by decide)

/-! ## Theorems: the adaptation gate (C3) -/

/-- C3: when the `should_adapt()` gate is false, `adapt()` returns the
empty change map and leaves every configuration parameter unchanged. -/
theorem adapt_noop_when_gate_false (now : ℚ) (t : AdaptiveTuner)
    (h : t.should_adapt now = false) :
    (t.adapt now).1 = [] ∧ (t.adapt now).2.config = t.config := by
  simp [AdaptiveTuner.adapt, h]

/-- Witness for C3: a freshly constructed tuner has not collected enough
samples, so `adapt()` at time 0 changes nothing. -/
theorem adapt_noop_when_gate_false_witness :
    tunerFresh.should_adapt 0 = false ∧
    (tunerFresh.adapt 0).1 = [] ∧ (tunerFresh.adapt 0).2.config = tunerFresh.config := by
  have hg : tunerFresh.should_adapt 0 = false := by
    norm_num [AdaptiveTuner.should_adapt, tunerFresh, AdaptiveTuner.init,
      AdaptiveMetrics.init]
  exact ⟨hg, adapt_noop_when_gate_false 0 tunerFresh hg⟩

/-! ## Rule-level lemmas about `adapt` -/

theorem rule1_changes_nil {r hr : ℚ} {c : MemoryConfig}
    (h : (rule1 r hr c).2 = []) : (rule1 r hr c).1 = c := by
  simp only [rule1] at h ⊢
  split_ifs at h ⊢ <;> simp_all

theorem rule2_changes_nil {r rr : ℚ} {fb : ℕ} {c : MemoryConfig}
    (h : (rule2 r rr fb c).2 = []) : (rule2 r rr fb c).1 = c := by
  simp only [rule2] at h ⊢
  split_ifs at h ⊢ <;> simp_all

theorem rule3_changes_nil {r fr : ℚ} {cy : ℕ} {c : MemoryConfig}
    (h : (rule3 r fr cy c).2 = []) : (rule3 r fr cy c).1 = c := by
  simp only [rule3] at h ⊢
  split_ifs at h ⊢ <;> simp_all

theorem rule4_changes_nil {r rr : ℚ} {pos : ℕ} {c : MemoryConfig}
    (h : (rule4 r rr pos c).2 = []) : (rule4 r rr pos c).1 = c := by
  simp only [rule4] at h ⊢
  split_ifs at h ⊢ <;> simp_all

/-- An `adapt` body that reports no changes has not touched the
configuration. -/
theorem adaptCore_changes_nil {r : ℚ} {m : AdaptiveMetrics} {c : MemoryConfig}
    (h : (adaptCore r m c).1 = []) : (adaptCore r m c).2 = c := by
  simp only [adaptCore, List.append_eq_nil] at h ⊢
  obtain ⟨⟨⟨h1, h2⟩, h3⟩, h4⟩ := h
  rw [rule1_changes_nil h1] at h2 h3 h4 ⊢
  rw [rule2_changes_nil h2] at h3 h4 ⊢
  rw [rule3_changes_nil h3] at h4 ⊢
  exact rule4_changes_nil h4

/-! ## Theorems: consecutive adaptation calls (C4) -/

/-- Counterexample to C4 as stated: on a tuner with default configuration,
`adaptation_rate = 0.05`, `adaptation_interval = 0` and a 40% hit rate
over 20 recalls, two consecutive `adapt()` calls with identical metric
snapshots produce different change maps (the first lowers
`min_activation` from −8 to −8.4, the second from −8.4 to −8.82). -/
theorem adapt_consecutive_calls_differ :
    ((tunerLowHit.adapt 0).2.adapt 0).1 ≠ (tunerLowHit.adapt 0).1 := by
  norm_num [AdaptiveTuner.adapt, AdaptiveTuner.should_adapt, adaptCore,
    rule1, rule2, rule3, rule4, AdaptiveMetrics.hit_rate,
    AdaptiveMetrics.reward_ratio, AdaptiveMetrics.forget_rate, tunerLowHit,
    MemoryConfig.default, AdaptiveMetrics.init, sup_eq_max, max_def,
    inf_eq_min, min_def, abs_of_nonneg, abs_of_nonpos]

/-- C4 (amended): `adapt()` is a deterministic function of the tuner
state, so consecutive calls with identical metric snapshots agree exactly
when the first call changed nothing — if the first `adapt()` returns the
empty change map, an immediate second call returns the empty map as
well. In general a successful first adaptation mutates the configuration
it reads, so the second call's changes differ. -/
theorem adapt_consecutive_empty (now : ℚ) (t : AdaptiveTuner)
    (h : (t.adapt now).1 = []) : ((t.adapt now).2.adapt now).1 = [] := by
  by_cases hg : t.should_adapt now = true
  · have hcore : (adaptCore t.adaptation_rate t.metrics t.config).1 = [] := by
      simpa [AdaptiveTuner.adapt, hg] using h
    have hcfg := adaptCore_changes_nil hcore
    have h2 : (t.adapt now).2 = { t with last_adaptation := now } := by
      simp [AdaptiveTuner.adapt, hg, hcfg]
    rw [h2]
    by_cases hg2 :
        AdaptiveTuner.should_adapt now { t with last_adaptation := now } = true
    · simpa [AdaptiveTuner.adapt, hg2] using hcore
    · simp [AdaptiveTuner.adapt, hg2]
  · have h2 : (t.adapt now).2 = t := by simp [AdaptiveTuner.adapt, hg]
    rw [h2]
    exact h

/-- Witness for the amended C4: a fresh tuner's first `adapt()` reports no
changes, and so does the immediate second call. -/
theorem adapt_consecutive_empty_witness :
    ((tunerFresh.adapt 0).2.adapt 0).1 = [] :=
  adapt_consecutive_empty 0 tunerFresh
    (by norm_num [AdaptiveTuner.adapt, AdaptiveTuner.should_adapt,
      tunerFresh, AdaptiveTuner.init, AdaptiveMetrics.init])

/-! ## Field-preservation lemmas for the four rules -/

theorem rule1_preserves {r hr : ℚ} {c : MemoryConfig} :
    (rule1 r hr c).1.mu1 = c.mu1 ∧ (rule1 r hr c).1.mu2 = c.mu2 ∧
    (rule1 r hr c).1.alpha = c.alpha ∧
    (rule1 r hr c).1.context_weight = c.context_weight := by
  simp only [rule1]
  split_ifs <;> simp

theorem rule2_preserves {r rr : ℚ} {fb : ℕ} {c : MemoryConfig} :
    (rule2 r rr fb c).1.min_activation = c.min_activation ∧
    (rule2 r rr fb c).1.mu1 = c.mu1 ∧ (rule2 r rr fb c).1.mu2 = c.mu2 ∧
    (rule2 r rr fb c).1.alpha = c.alpha := by
  simp only [rule2]
  split_ifs <;> simp

theorem rule3_preserves {r fr : ℚ} {cy : ℕ} {c : MemoryConfig} :
    (rule3 r fr cy c).1.min_activation = c.min_activation ∧
    (rule3 r fr cy c).1.context_weight = c.context_weight ∧
    (rule3 r fr cy c).1.alpha = c.alpha := by
  simp only [rule3]
  split_ifs <;> simp

theorem rule4_preserves {r rr : ℚ} {pos : ℕ} {c : MemoryConfig} :
    (rule4 r rr pos c).1.min_activation = c.min_activation ∧
    (rule4 r rr pos c).1.context_weight = c.context_weight ∧
    (rule4 r rr pos c).1.mu1 = c.mu1 ∧ (rule4 r rr pos c).1.mu2 = c.mu2 := by
  simp only [rule4]
  split_ifs <;> simp

/-- Unfolding of `adapt` when the gate passes. -/
theorem adapt_gate_true {now : ℚ} {t : AdaptiveTuner}
    (hg : t.should_adapt now = true) :
    t.adapt now = ((adaptCore t.adaptation_rate t.metrics t.config).1,
      { t with config := (adaptCore t.adaptation_rate t.metrics t.config).2,
               last_adaptation := now }) := by
  simp [AdaptiveTuner.adapt, hg]

/-- `min_activation` after the full rule chain is whatever rule 1 left,
and rule 1's change entries survive into the final change list. -/
theorem adaptCore_min_activation (r : ℚ) (m : AdaptiveMetrics) (c : MemoryConfig) :
    (adaptCore r m c).2.min_activation = (rule1 r m.hit_rate c).1.min_activation ∧
    (∀ v, ("min_activation", v) ∈ (rule1 r m.hit_rate c).2 →
      ("min_activation", v) ∈ (adaptCore r m c).1) := by
  constructor
  · simp only [adaptCore]
    rw [rule4_preserves.1, rule3_preserves.1, rule2_preserves.1]
  · intro v hv
    simp only [adaptCore]
    exact List.mem_append_left _ (List.mem_append_left _ (List.mem_append_left _ hv))

/-- Behaviour of rule 1 under a low hit rate. -/
theorem rule1_low {r hr : ℚ} {c : MemoryConfig} (hlow : hr < 3/5) :
    (rule1 r hr c).1.min_activation
        = max (c.min_activation - |c.min_activation * r|) (-15) ∧
    (max (c.min_activation - |c.min_activation * r|) (-15) ≠ c.min_activation →
      ("min_activation", max (c.min_activation - |c.min_activation * r|) (-15))
        ∈ (rule1 r hr c).2) := by
  simp only [rule1]
  rw [if_pos hlow]
  by_cases h : max (c.min_activation - |c.min_activation * r|) (-15)
      = c.min_activation <;> simp [h]

/-! ## Theorems: the low-hit-rate rule (C2) -/

/-- Counterexample to C2 as stated: with `min_activation` already at the
−15 clamp, the gate holding and a 40% hit rate, `adapt()` puts no
`"min_activation"` entry in the returned change map (the clamped new
value equals the old one, so the rule records nothing). -/
theorem adapt_clamped_low_hit_records_nothing :
    tunerClampedLow.should_adapt 0 = true ∧
    tunerClampedLow.metrics.hit_rate < 3/5 ∧
    (tunerClampedLow.adapt 0).1 = [] := by
  refine ⟨?_, ?_, ?_⟩
  · norm_num [AdaptiveTuner.should_adapt, tunerClampedLow, tunerLowHit,
      AdaptiveMetrics.init]
  · norm_num [AdaptiveMetrics.hit_rate, tunerClampedLow, tunerLowHit,
      AdaptiveMetrics.init]
  · norm_num [AdaptiveTuner.adapt, AdaptiveTuner.should_adapt, adaptCore,
      rule1, rule2, rule3, rule4, AdaptiveMetrics.hit_rate,
      AdaptiveMetrics.reward_ratio, AdaptiveMetrics.forget_rate,
      tunerClampedLow, tunerLowHit, MemoryConfig.default,
      AdaptiveMetrics.init, sup_eq_max, max_def, inf_eq_min, min_def,
      abs_of_nonneg, abs_of_nonpos]

/-- C2 (amended): whenever `should_adapt()` holds and `hit_rate < 0.6`,
`adapt()` replaces `min_activation` with
`min_activation − |min_activation · adaptation_rate|` clamped to at least
−15, and records the new value under key `"min_activation"` in the
returned change map whenever it differs from the previous value — in
particular no entry is recorded when `min_activation` already sits at the
−15 clamp. With the default −8.0 and rate 0.05, a 40% hit rate over 20
recalls decreases `min_activation` by exactly 0.4 (see the witness). -/
theorem adapt_low_hit_rate_updates_min_activation (t : AdaptiveTuner) (now : ℚ)
    (hg : t.should_adapt now = true) (hlow : t.metrics.hit_rate < 3/5) :
    (t.adapt now).2.config.min_activation
        = max (t.config.min_activation - |t.config.min_activation * t.adaptation_rate|) (-15) ∧
    (max (t.config.min_activation - |t.config.min_activation * t.adaptation_rate|) (-15)
        ≠ t.config.min_activation →
      ("min_activation",
        max (t.config.min_activation - |t.config.min_activation * t.adaptation_rate|) (-15))
        ∈ (t.adapt now).1) := by
  have hcore := adaptCore_min_activation t.adaptation_rate t.metrics t.config
  have hr1 := rule1_low (r := t.adaptation_rate) (c := t.config) hlow
  rw [adapt_gate_true hg]
  exact ⟨hcore.1.trans hr1.1, fun hne => hcore.2 _ (hr1.2 hne)⟩

/-- Witness for the amended C2: on the default configuration with a 40%
hit rate over 20 recalls and rate 0.05, `min_activation` moves from −8.0
to −8.4 — a decrease of exactly 0.4 — and is recorded in the change
map. -/
theorem adapt_low_hit_rate_witness :
    (tunerLowHit.adapt 0).2.config.min_activation = -42/5 ∧
    ("min_activation", (-42/5 : ℚ)) ∈ (tunerLowHit.adapt 0).1 ∧
    (-42/5 : ℚ) = MemoryConfig.default.min_activation - 2/5 := by
  have hg : tunerLowHit.should_adapt 0 = true := by
    norm_num [AdaptiveTuner.should_adapt, tunerLowHit, AdaptiveMetrics.init]
  have hlow : tunerLowHit.metrics.hit_rate < 3/5 := by
    norm_num [AdaptiveMetrics.hit_rate, tunerLowHit, AdaptiveMetrics.init]
  have h := adapt_low_hit_rate_updates_min_activation tunerLowHit 0 hg hlow
  have hmax : max (tunerLowHit.config.min_activation -
      |tunerLowHit.config.min_activation * tunerLowHit.adaptation_rate|) (-15)
      = (-42/5 : ℚ) := by
    norm_num [tunerLowHit, MemoryConfig.default, sup_eq_max, max_def,
      abs_of_nonneg, abs_of_nonpos]
  have hne : max (tunerLowHit.config.min_activation -
      |tunerLowHit.config.min_activation * tunerLowHit.adaptation_rate|) (-15)
      ≠ tunerLowHit.config.min_activation := by
    rw [hmax]
    norm_num [tunerLowHit, MemoryConfig.default]
  refine ⟨hmax ▸ h.1, hmax ▸ h.2 hne, by norm_num [MemoryConfig.default]⟩

/-! ## Keys, bounds, and no-op-at-clamp lemmas for the rules -/

theorem rule1_keys {r hr : ℚ} {c : MemoryConfig} :
    ∀ kv ∈ (rule1 r hr c).2, kv.1 = "min_activation" := by
  simp only [rule1]
  split_ifs <;> simp

theorem rule2_keys {r rr : ℚ} {fb : ℕ} {c : MemoryConfig} :
    ∀ kv ∈ (rule2 r rr fb c).2, kv.1 = "context_weight" := by
  simp only [rule2]
  split_ifs <;> simp

theorem rule3_keys {r fr : ℚ} {cy : ℕ} {c : MemoryConfig} :
    ∀ kv ∈ (rule3 r fr cy c).2, kv.1 = "mu1" ∨ kv.1 = "mu2" := by
  simp only [rule3]
  split_ifs <;> simp_all

theorem rule4_keys {r rr : ℚ} {pos : ℕ} {c : MemoryConfig} :
    ∀ kv ∈ (rule4 r rr pos c).2, kv.1 = "alpha" := by
  simp only [rule4]
  split_ifs <;> simp

theorem rule1_mem_bounds {r hr : ℚ} {c : MemoryConfig} {v : ℚ}
    (h : ("min_activation", v) ∈ (rule1 r hr c).2) :
    (hr < 3/5 → -15 ≤ v) ∧ (hr > 9/10 → v ≤ -5) := by
  simp only [rule1] at h
  split_ifs at h with h1 h2 h3 h4 <;> simp at h
  · subst h
    exact ⟨fun _ => le_max_right _ _, fun h9 => absurd h1 (by linarith)⟩
  · subst h
    exact ⟨fun h5 => absurd h5 h1, fun _ => min_le_right _ _⟩

theorem rule2_mem_le {r rr : ℚ} {fb : ℕ} {c : MemoryConfig} {v : ℚ}
    (h : ("context_weight", v) ∈ (rule2 r rr fb c).2) : v ≤ 3 := by
  simp only [rule2] at h
  split_ifs at h <;> simp at h
  subst h
  exact min_le_right _ _

theorem rule3_mem_mu1 {r fr : ℚ} {cy : ℕ} {c : MemoryConfig} {v : ℚ}
    (hr0 : 0 ≤ r) (hl : 1/100 ≤ c.mu1) (hu : c.mu1 ≤ 1/2)
    (h : ("mu1", v) ∈ (rule3 r fr cy c).2) : 1/100 ≤ v ∧ v ≤ 1/2 := by
  have hge : (0:ℚ) ≤ c.mu1 := by linarith
  have hprod : 0 ≤ c.mu1 * r := mul_nonneg hge hr0
  have hd1 : 1/100 ≤ max (c.mu1 * (1 - r)) (1/100) := le_max_right _ _
  have hd2 : max (c.mu1 * (1 - r)) (1/100) ≤ 1/2 := max_le (by nlinarith) (by norm_num)
  have hg1 : 1/100 ≤ min (c.mu1 * (1 + r)) (1/2) := le_min (by nlinarith) (by norm_num)
  have hg2 : min (c.mu1 * (1 + r)) (1/2) ≤ 1/2 := min_le_right _ _
  simp only [rule3] at h
  split_ifs at h <;>
    simp only [List.mem_append, List.mem_singleton, List.not_mem_nil,
      Prod.mk.injEq, String.reduceEq, false_and, true_and, and_false,
      false_or, or_false] at h <;>
    subst h <;> first | exact ⟨hd1, hd2⟩ | exact ⟨hg1, hg2⟩

theorem rule3_mem_mu2 {r fr : ℚ} {cy : ℕ} {c : MemoryConfig} {v : ℚ}
    (hr0 : 0 ≤ r) (hl : 1/10000 ≤ c.mu2) (hu : c.mu2 ≤ 1/50)
    (h : ("mu2", v) ∈ (rule3 r fr cy c).2) : 1/10000 ≤ v ∧ v ≤ 1/50 := by
  have hge : (0:ℚ) ≤ c.mu2 := by linarith
  have hprod : 0 ≤ c.mu2 * r := mul_nonneg hge hr0
  have hd1 : 1/10000 ≤ max (c.mu2 * (1 - r)) (1/10000) := le_max_right _ _
  have hd2 : max (c.mu2 * (1 - r)) (1/10000) ≤ 1/50 := max_le (by nlinarith) (by norm_num)
  have hg1 : 1/10000 ≤ min (c.mu2 * (1 + r)) (1/50) := le_min (by nlinarith) (by norm_num)
  have hg2 : min (c.mu2 * (1 + r)) (1/50) ≤ 1/50 := min_le_right _ _
  simp only [rule3] at h
  split_ifs at h <;>
    simp only [List.mem_append, List.mem_singleton, List.not_mem_nil,
      Prod.mk.injEq, String.reduceEq, false_and, true_and, and_false,
      false_or, or_false] at h <;>
    subst h <;> first | exact ⟨hd1, hd2⟩ | exact ⟨hg1, hg2⟩

theorem rule4_mem_le {r rr : ℚ} {pos : ℕ} {c : MemoryConfig} {v : ℚ}
    (h : ("alpha", v) ∈ (rule4 r rr pos c).2) : v ≤ 3/10 := by
  simp only [rule4] at h
  split_ifs at h <;> simp at h
  subst h
  exact min_le_right _ _

theorem rule1_noop_low {r hr : ℚ} {c : MemoryConfig}
    (hc : c.min_activation = -15) (hlow : hr < 3/5) : rule1 r hr c = (c, []) := by
  have hmax : max (c.min_activation - |c.min_activation * r|) (-15)
      = c.min_activation := by
    rw [hc]
    exact max_eq_right (by linarith [abs_nonneg ((-15 : ℚ) * r)])
  simp only [rule1]
  rw [if_pos hlow, if_neg (not_ne_iff.mpr hmax)]

theorem rule1_noop_high {r hr : ℚ} {c : MemoryConfig}
    (hc : c.min_activation = -5) (hhigh : hr > 9/10) : rule1 r hr c = (c, []) := by
  have hmin : min (c.min_activation + |c.min_activation * r / 2|) (-5)
      = c.min_activation := by
    rw [hc]
    exact min_eq_right (by linarith [abs_nonneg ((-5 : ℚ) * r / 2)])
  simp only [rule1]
  rw [if_neg (by linarith : ¬ hr < 3/5), if_pos hhigh,
    if_neg (not_ne_iff.mpr hmin)]

theorem rule2_noop {r rr : ℚ} {fb : ℕ} {c : MemoryConfig}
    (hr0 : 0 ≤ r) (hc : c.context_weight = 3) : rule2 r rr fb c = (c, []) := by
  have hmin : min (c.context_weight * (1 + r)) 3 = c.context_weight := by
    rw [hc]
    exact min_eq_right (by nlinarith)
  simp only [rule2]
  split_ifs with h1 h2
  · exact absurd hmin h2
  · rfl
  · rfl

theorem rule4_noop {r rr : ℚ} {pos : ℕ} {c : MemoryConfig}
    (hr0 : 0 ≤ r) (hc : c.alpha = 3/10) : rule4 r rr pos c = (c, []) := by
  have hmin : min (c.alpha * (1 + r / 2)) (3/10) = c.alpha := by
    rw [hc]
    exact min_eq_right (by nlinarith)
  simp only [rule4]
  split_ifs with h1 h2
  · exact absurd hmin h2
  · rfl
  · rfl

theorem rule3_noop_mu1_decay {r fr : ℚ} {cy : ℕ} {c : MemoryConfig}
    (hr0 : 0 ≤ r) (hc : c.mu1 = 1/100) (hf : fr > 10) :
    (rule3 r fr cy c).1.mu1 = c.mu1 ∧ ∀ v, ("mu1", v) ∉ (rule3 r fr cy c).2 := by
  have hmax : max (c.mu1 * (1 - r)) (1/100) = c.mu1 := by
    rw [hc]
    exact max_eq_right (by nlinarith)
  simp only [rule3]
  rw [if_pos hf, if_neg (not_ne_iff.mpr hmax)]
  split_ifs <;> simp

theorem rule3_noop_mu1_growth {r fr : ℚ} {cy : ℕ} {c : MemoryConfig}
    (hr0 : 0 ≤ r) (hc : c.mu1 = 1/2) (hf : fr < 2) :
    (rule3 r fr cy c).1.mu1 = c.mu1 ∧ ∀ v, ("mu1", v) ∉ (rule3 r fr cy c).2 := by
  have hmin : min (c.mu1 * (1 + r)) (1/2) = c.mu1 := by
    rw [hc]
    exact min_eq_right (by nlinarith)
  simp only [rule3]
  rw [if_neg (by linarith : ¬ fr > 10)]
  split_ifs with h1 h2 h3 h4 <;>
    first | exact absurd hmin h3 | exact absurd hmin h4 | simp

theorem rule3_noop_mu2_decay {r fr : ℚ} {cy : ℕ} {c : MemoryConfig}
    (hr0 : 0 ≤ r) (hc : c.mu2 = 1/10000) (hf : fr > 10) :
    (rule3 r fr cy c).1.mu2 = c.mu2 ∧ ∀ v, ("mu2", v) ∉ (rule3 r fr cy c).2 := by
  have hmax : max (c.mu2 * (1 - r)) (1/10000) = c.mu2 := by
    rw [hc]
    exact max_eq_right (by nlinarith)
  simp only [rule3]
  rw [if_pos hf, if_neg (not_ne_iff.mpr hmax)]
  split_ifs <;> simp

theorem rule3_noop_mu2_growth {r fr : ℚ} {cy : ℕ} {c : MemoryConfig}
    (hr0 : 0 ≤ r) (hc : c.mu2 = 1/50) (hf : fr < 2) :
    (rule3 r fr cy c).1.mu2 = c.mu2 ∧ ∀ v, ("mu2", v) ∉ (rule3 r fr cy c).2 := by
  have hmin : min (c.mu2 * (1 + r)) (1/50) = c.mu2 := by
    rw [hc]
    exact min_eq_right (by nlinarith)
  simp only [rule3]
  rw [if_neg (by linarith : ¬ fr > 10)]
  split_ifs with h1 h2 h3 <;> first | exact absurd hmin h2 | simp

/-- Every change entry produced by the rule chain comes from one of the
four rules, applied to a configuration whose other fields agree with the
input configuration. -/
theorem adaptCore_mem_cases {r : ℚ} {m : AdaptiveMetrics} {c : MemoryConfig}
    {kv : String × ℚ} (h : kv ∈ (adaptCore r m c).1) :
    kv ∈ (rule1 r m.hit_rate c).2 ∨
    (∃ c1, c1.context_weight = c.context_weight ∧
      kv ∈ (rule2 r m.reward_ratio (m.positive_rewards + m.negative_rewards) c1).2) ∨
    (∃ c2, c2.mu1 = c.mu1 ∧ c2.mu2 = c.mu2 ∧
      kv ∈ (rule3 r m.forget_rate m.consolidation_cycles c2).2) ∨
    (∃ c3, c3.alpha = c.alpha ∧
      kv ∈ (rule4 r m.reward_ratio m.positive_rewards c3).2) := by
  simp only [adaptCore, List.mem_append] at h
  rcases h with ((h | h) | h) | h
  · exact Or.inl h
  · exact Or.inr (Or.inl ⟨_, rule1_preserves.2.2.2, h⟩)
  · exact Or.inr (Or.inr (Or.inl ⟨_,
      rule2_preserves.2.1.trans rule1_preserves.1,
      rule2_preserves.2.2.1.trans rule1_preserves.2.1, h⟩))
  · exact Or.inr (Or.inr (Or.inr ⟨_,
      rule3_preserves.2.2.trans (rule2_preserves.2.2.2.trans rule1_preserves.2.2.1), h⟩))

theorem adaptCore_context_weight_eq (r : ℚ) (m : AdaptiveMetrics) (c : MemoryConfig) :
    (adaptCore r m c).2.context_weight =
      (rule2 r m.reward_ratio (m.positive_rewards + m.negative_rewards)
        (rule1 r m.hit_rate c).1).1.context_weight := by
  simp only [adaptCore]
  rw [rule4_preserves.2.1, rule3_preserves.2.1]

theorem adaptCore_mu1_eq (r : ℚ) (m : AdaptiveMetrics) (c : MemoryConfig) :
    (adaptCore r m c).2.mu1 =
      (rule3 r m.forget_rate m.consolidation_cycles
        (rule2 r m.reward_ratio (m.positive_rewards + m.negative_rewards)
          (rule1 r m.hit_rate c).1).1).1.mu1 := by
  simp only [adaptCore]
  rw [rule4_preserves.2.2.1]

theorem adaptCore_mu2_eq (r : ℚ) (m : AdaptiveMetrics) (c : MemoryConfig) :
    (adaptCore r m c).2.mu2 =
      (rule3 r m.forget_rate m.consolidation_cycles
        (rule2 r m.reward_ratio (m.positive_rewards + m.negative_rewards)
          (rule1 r m.hit_rate c).1).1).1.mu2 := by
  simp only [adaptCore]
  rw [rule4_preserves.2.2.2]

/-- The clamp discipline of the rule chain, stated over `adaptCore`. -/
theorem adaptCore_respects_clamps (r : ℚ) (m : AdaptiveMetrics) (c : MemoryConfig)
    (hr0 : 0 ≤ r) (hmu1l : 1/100 ≤ c.mu1) (hmu1u : c.mu1 ≤ 1/2)
    (hmu2l : 1/10000 ≤ c.mu2) (hmu2u : c.mu2 ≤ 1/50) :
    (∀ v, ("min_activation", v) ∈ (adaptCore r m c).1 →
      (m.hit_rate < 3/5 → -15 ≤ v) ∧ (m.hit_rate > 9/10 → v ≤ -5)) ∧
    (∀ v, ("context_weight", v) ∈ (adaptCore r m c).1 → v ≤ 3) ∧
    (∀ v, ("mu1", v) ∈ (adaptCore r m c).1 → 1/100 ≤ v ∧ v ≤ 1/2) ∧
    (∀ v, ("mu2", v) ∈ (adaptCore r m c).1 → 1/10000 ≤ v ∧ v ≤ 1/50) ∧
    (∀ v, ("alpha", v) ∈ (adaptCore r m c).1 → v ≤ 3/10) ∧
    (c.min_activation = -15 → m.hit_rate < 3/5 →
      (adaptCore r m c).2.min_activation = -15 ∧
      ∀ v, ("min_activation", v) ∉ (adaptCore r m c).1) ∧
    (c.min_activation = -5 → m.hit_rate > 9/10 →
      (adaptCore r m c).2.min_activation = -5 ∧
      ∀ v, ("min_activation", v) ∉ (adaptCore r m c).1) ∧
    (c.context_weight = 3 →
      (adaptCore r m c).2.context_weight = 3 ∧
      ∀ v, ("context_weight", v) ∉ (adaptCore r m c).1) ∧
    (c.mu1 = 1/100 → m.forget_rate > 10 →
      (adaptCore r m c).2.mu1 = 1/100 ∧ ∀ v, ("mu1", v) ∉ (adaptCore r m c).1) ∧
    (c.mu1 = 1/2 → m.forget_rate < 2 →
      (adaptCore r m c).2.mu1 = 1/2 ∧ ∀ v, ("mu1", v) ∉ (adaptCore r m c).1) ∧
    (c.mu2 = 1/10000 → m.forget_rate > 10 →
      (adaptCore r m c).2.mu2 = 1/10000 ∧ ∀ v, ("mu2", v) ∉ (adaptCore r m c).1) ∧
    (c.mu2 = 1/50 → m.forget_rate < 2 →
      (adaptCore r m c).2.mu2 = 1/50 ∧ ∀ v, ("mu2", v) ∉ (adaptCore r m c).1) ∧
    (c.alpha = 3/10 →
      (adaptCore r m c).2.alpha = 3/10 ∧
      ∀ v, ("alpha", v) ∉ (adaptCore r m c).1) := by
  refine ⟨?_, ?_, ?_, ?_, ?_, ?_, ?_, ?_, ?_, ?_, ?_, ?_, ?_⟩
  · intro v hv
    rcases adaptCore_mem_cases hv with h | ⟨c1, -, h⟩ | ⟨c2, -, -, h⟩ | ⟨c3, -, h⟩
    · exact rule1_mem_bounds h
    · exact absurd (rule2_keys _ h) (by simp)
    · rcases rule3_keys _ h with hk | hk <;> exact absurd hk (by simp)
    · exact absurd (rule4_keys _ h) (by simp)
  · intro v hv
    rcases adaptCore_mem_cases hv with h | ⟨c1, -, h⟩ | ⟨c2, -, -, h⟩ | ⟨c3, -, h⟩
    · exact absurd (rule1_keys _ h) (by simp)
    · exact rule2_mem_le h
    · rcases rule3_keys _ h with hk | hk <;> exact absurd hk (by simp)
    · exact absurd (rule4_keys _ h) (by simp)
  · intro v hv
    rcases adaptCore_mem_cases hv with h | ⟨c1, -, h⟩ | ⟨c2, hm1, hm2, h⟩ | ⟨c3, -, h⟩
    · exact absurd (rule1_keys _ h) (by simp)
    · exact absurd (rule2_keys _ h) (by simp)
    · exact rule3_mem_mu1 hr0 (by rw [hm1]; exact hmu1l) (by rw [hm1]; exact hmu1u) h
    · exact absurd (rule4_keys _ h) (by simp)
  · intro v hv
    rcases adaptCore_mem_cases hv with h | ⟨c1, -, h⟩ | ⟨c2, hm1, hm2, h⟩ | ⟨c3, -, h⟩
    · exact absurd (rule1_keys _ h) (by simp)
    · exact absurd (rule2_keys _ h) (by simp)
    · exact rule3_mem_mu2 hr0 (by rw [hm2]; exact hmu2l) (by rw [hm2]; exact hmu2u) h
    · exact absurd (rule4_keys _ h) (by simp)
  · intro v hv
    rcases adaptCore_mem_cases hv with h | ⟨c1, -, h⟩ | ⟨c2, -, -, h⟩ | ⟨c3, -, h⟩
    · exact absurd (rule1_keys _ h) (by simp)
    · exact absurd (rule2_keys _ h) (by simp)
    · rcases rule3_keys _ h with hk | hk <;> exact absurd hk (by simp)
    · exact rule4_mem_le h
  · intro hc hlow
    have hnil := rule1_noop_low (r := r) hc hlow
    constructor
    · rw [(adaptCore_min_activation r m c).1, hnil]
      exact hc
    · intro v hv
      rcases adaptCore_mem_cases hv with h | ⟨c1, -, h⟩ | ⟨c2, -, -, h⟩ | ⟨c3, -, h⟩
      · rw [hnil] at h
        exact absurd h (List.not_mem_nil _)
      · exact absurd (rule2_keys _ h) (by simp)
      · rcases rule3_keys _ h with hk | hk <;> exact absurd hk (by simp)
      · exact absurd (rule4_keys _ h) (by simp)
  · intro hc hhigh
    have hnil := rule1_noop_high (r := r) hc hhigh
    constructor
    · rw [(adaptCore_min_activation r m c).1, hnil]
      exact hc
    · intro v hv
      rcases adaptCore_mem_cases hv with h | ⟨c1, -, h⟩ | ⟨c2, -, -, h⟩ | ⟨c3, -, h⟩
      · rw [hnil] at h
        exact absurd h (List.not_mem_nil _)
      · exact absurd (rule2_keys _ h) (by simp)
      · rcases rule3_keys _ h with hk | hk <;> exact absurd hk (by simp)
      · exact absurd (rule4_keys _ h) (by simp)
  · intro hc
    have hc1 : (rule1 r m.hit_rate c).1.context_weight = 3 :=
      rule1_preserves.2.2.2.trans hc
    have hnil : rule2 r m.reward_ratio (m.positive_rewards + m.negative_rewards)
        (rule1 r m.hit_rate c).1 = ((rule1 r m.hit_rate c).1, []) :=
      rule2_noop hr0 hc1
    constructor
    · rw [adaptCore_context_weight_eq, hnil]
      exact hc1
    · intro v hv
      rcases adaptCore_mem_cases hv with h | ⟨c1, hcw, h⟩ | ⟨c2, -, -, h⟩ | ⟨c3, -, h⟩
      · exact absurd (rule1_keys _ h) (by simp)
      · rw [rule2_noop hr0 (hcw.trans hc)] at h
        exact absurd h (List.not_mem_nil _)
      · rcases rule3_keys _ h with hk | hk <;> exact absurd hk (by simp)
      · exact absurd (rule4_keys _ h) (by simp)
  · intro hc hf
    have hcmu : (rule2 r m.reward_ratio (m.positive_rewards + m.negative_rewards)
        (rule1 r m.hit_rate c).1).1.mu1 = 1/100 :=
      (rule2_preserves.2.1.trans rule1_preserves.1).trans hc
    constructor
    · rw [adaptCore_mu1_eq, (rule3_noop_mu1_decay hr0 hcmu hf).1]
      exact hcmu
    · intro v hv
      rcases adaptCore_mem_cases hv with h | ⟨c1, -, h⟩ | ⟨c2, hm1, -, h⟩ | ⟨c3, -, h⟩
      · exact absurd (rule1_keys _ h) (by simp)
      · exact absurd (rule2_keys _ h) (by simp)
      · exact (rule3_noop_mu1_decay hr0 (hm1.trans hc) hf).2 v h
      · exact absurd (rule4_keys _ h) (by simp)
  · intro hc hf
    have hcmu : (rule2 r m.reward_ratio (m.positive_rewards + m.negative_rewards)
        (rule1 r m.hit_rate c).1).1.mu1 = 1/2 :=
      (rule2_preserves.2.1.trans rule1_preserves.1).trans hc
    constructor
    · rw [adaptCore_mu1_eq, (rule3_noop_mu1_growth hr0 hcmu hf).1]
      exact hcmu
    · intro v hv
      rcases adaptCore_mem_cases hv with h | ⟨c1, -, h⟩ | ⟨c2, hm1, -, h⟩ | ⟨c3, -, h⟩
      · exact absurd (rule1_keys _ h) (by simp)
      · exact absurd (rule2_keys _ h) (by simp)
      · exact (rule3_noop_mu1_growth hr0 (hm1.trans hc) hf).2 v h
      · exact absurd (rule4_keys _ h) (by simp)
  · intro hc hf
    have hcmu : (rule2 r m.reward_ratio (m.positive_rewards + m.negative_rewards)
        (rule1 r m.hit_rate c).1).1.mu2 = 1/10000 :=
      (rule2_preserves.2.2.1.trans rule1_preserves.2.1).trans hc
    constructor
    · rw [adaptCore_mu2_eq, (rule3_noop_mu2_decay hr0 hcmu hf).1]
      exact hcmu
    · intro v hv
      rcases adaptCore_mem_cases hv with h | ⟨c1, -, h⟩ | ⟨c2, -, hm2, h⟩ | ⟨c3, -, h⟩
      · exact absurd (rule1_keys _ h) (by simp)
      · exact absurd (rule2_keys _ h) (by simp)
      · exact (rule3_noop_mu2_decay hr0 (hm2.trans hc) hf).2 v h
      · exact absurd (rule4_keys _ h) (by simp)
  · intro hc hf
    have hcmu : (rule2 r m.reward_ratio (m.positive_rewards + m.negative_rewards)
        (rule1 r m.hit_rate c).1).1.mu2 = 1/50 :=
      (rule2_preserves.2.2.1.trans rule1_preserves.2.1).trans hc
    constructor
    · rw [adaptCore_mu2_eq, (rule3_noop_mu2_growth hr0 hcmu hf).1]
      exact hcmu
    · intro v hv
      rcases adaptCore_mem_cases hv with h | ⟨c1, -, h⟩ | ⟨c2, -, hm2, h⟩ | ⟨c3, -, h⟩
      · exact absurd (rule1_keys _ h) (by simp)
      · exact absurd (rule2_keys _ h) (by simp)
      · exact (rule3_noop_mu2_growth hr0 (hm2.trans hc) hf).2 v h
      · exact absurd (rule4_keys _ h) (by simp)
  · intro hc
    have hc3 : (rule3 r m.forget_rate m.consolidation_cycles
        (rule2 r m.reward_ratio (m.positive_rewards + m.negative_rewards)
          (rule1 r m.hit_rate c).1).1).1.alpha = 3/10 :=
      (rule3_preserves.2.2.trans
        (rule2_preserves.2.2.2.trans rule1_preserves.2.2.1)).trans hc
    have hnil : rule4 r m.reward_ratio m.positive_rewards
        (rule3 r m.forget_rate m.consolidation_cycles
          (rule2 r m.reward_ratio (m.positive_rewards + m.negative_rewards)
            (rule1 r m.hit_rate c).1).1).1
        = ((rule3 r m.forget_rate m.consolidation_cycles
            (rule2 r m.reward_ratio (m.positive_rewards + m.negative_rewards)
              (rule1 r m.hit_rate c).1).1).1, []) :=
      rule4_noop hr0 hc3
    constructor
    · show (rule4 r m.reward_ratio m.positive_rewards _).1.alpha = 3/10
      rw [hnil]
      exact hc3
    · intro v hv
      rcases adaptCore_mem_cases hv with h | ⟨c1, -, h⟩ | ⟨c2, -, -, h⟩ | ⟨c3, halpha, h⟩
      · exact absurd (rule1_keys _ h) (by simp)
      · exact absurd (rule2_keys _ h) (by simp)
      · rcases rule3_keys _ h with hk | hk <;> exact absurd hk (by simp)
      · rw [rule4_noop hr0 (halpha.trans hc)] at h
        exact absurd h (List.not_mem_nil _)

/-! ## Theorems: clamp discipline of `adapt` (C6) -/

/-- C6: every configuration value written by `adapt()` respects its
clamp — `min_activation` never below −15 by the low-hit-rate rule nor
above −5 by the high-hit-rate rule, `context_weight` never above 3.0,
`mu1` within [0.01, 0.5] and `mu2` within [0.0001, 0.02] when modified
(starting in range, with a nonnegative adaptation rate), and `alpha`
never above 0.3; moreover a rule whose parameter already sits at its
clamp leaves that parameter unchanged and adds no entry to the returned
change map. -/
theorem adapt_respects_clamps (t : AdaptiveTuner) (now : ℚ)
    (hr0 : 0 ≤ t.adaptation_rate)
    (hmu1l : 1/100 ≤ t.config.mu1) (hmu1u : t.config.mu1 ≤ 1/2)
    (hmu2l : 1/10000 ≤ t.config.mu2) (hmu2u : t.config.mu2 ≤ 1/50) :
    (∀ v, ("min_activation", v) ∈ (t.adapt now).1 →
      (t.metrics.hit_rate < 3/5 → -15 ≤ v) ∧ (t.metrics.hit_rate > 9/10 → v ≤ -5)) ∧
    (∀ v, ("context_weight", v) ∈ (t.adapt now).1 → v ≤ 3) ∧
    (∀ v, ("mu1", v) ∈ (t.adapt now).1 → 1/100 ≤ v ∧ v ≤ 1/2) ∧
    (∀ v, ("mu2", v) ∈ (t.adapt now).1 → 1/10000 ≤ v ∧ v ≤ 1/50) ∧
    (∀ v, ("alpha", v) ∈ (t.adapt now).1 → v ≤ 3/10) ∧
    (t.config.min_activation = -15 → t.metrics.hit_rate < 3/5 →
      (t.adapt now).2.config.min_activation = -15 ∧
      ∀ v, ("min_activation", v) ∉ (t.adapt now).1) ∧
    (t.config.min_activation = -5 → t.metrics.hit_rate > 9/10 →
      (t.adapt now).2.config.min_activation = -5 ∧
      ∀ v, ("min_activation", v) ∉ (t.adapt now).1) ∧
    (t.config.context_weight = 3 →
      (t.adapt now).2.config.context_weight = 3 ∧
      ∀ v, ("context_weight", v) ∉ (t.adapt now).1) ∧
    (t.config.mu1 = 1/100 → t.metrics.forget_rate > 10 →
      (t.adapt now).2.config.mu1 = 1/100 ∧ ∀ v, ("mu1", v) ∉ (t.adapt now).1) ∧
    (t.config.mu1 = 1/2 → t.metrics.forget_rate < 2 →
      (t.adapt now).2.config.mu1 = 1/2 ∧ ∀ v, ("mu1", v) ∉ (t.adapt now).1) ∧
    (t.config.mu2 = 1/10000 → t.metrics.forget_rate > 10 →
      (t.adapt now).2.config.mu2 = 1/10000 ∧ ∀ v, ("mu2", v) ∉ (t.adapt now).1) ∧
    (t.config.mu2 = 1/50 → t.metrics.forget_rate < 2 →
      (t.adapt now).2.config.mu2 = 1/50 ∧ ∀ v, ("mu2", v) ∉ (t.adapt now).1) ∧
    (t.config.alpha = 3/10 →
      (t.adapt now).2.config.alpha = 3/10 ∧
      ∀ v, ("alpha", v) ∉ (t.adapt now).1) := by
  by_cases hg : t.should_adapt now = true
  · rw [adapt_gate_true hg]
    simpa using adaptCore_respects_clamps t.adaptation_rate t.metrics t.config
      hr0 hmu1l hmu1u hmu2l hmu2u
  · have hnoop : t.adapt now = ([], t) := by
      simp [AdaptiveTuner.adapt, hg]
    rw [hnoop]
    refine ⟨fun v hv => absurd hv (List.not_mem_nil _),
      fun v hv => absurd hv (List.not_mem_nil _),
      fun v hv => absurd hv (List.not_mem_nil _),
      fun v hv => absurd hv (List.not_mem_nil _),
      fun v hv => absurd hv (List.not_mem_nil _),
      fun hc _ => ⟨hc, fun v hv => List.not_mem_nil _ hv⟩,
      fun hc _ => ⟨hc, fun v hv => List.not_mem_nil _ hv⟩,
      fun hc => ⟨hc, fun v hv => List.not_mem_nil _ hv⟩,
      fun hc _ => ⟨hc, fun v hv => List.not_mem_nil _ hv⟩,
      fun hc _ => ⟨hc, fun v hv => List.not_mem_nil _ hv⟩,
      fun hc _ => ⟨hc, fun v hv => List.not_mem_nil _ hv⟩,
      fun hc _ => ⟨hc, fun v hv => List.not_mem_nil _ hv⟩,
      fun hc => ⟨hc, fun v hv => List.not_mem_nil _ hv⟩⟩

/-- Witness for C6: on the 40%-hit-rate tuner the value actually written
for `min_activation` (−8.4) respects the −15 clamp, as delivered by the
theorem. -/
theorem adapt_respects_clamps_witness :
    (0:ℚ) ≤ tunerLowHit.adaptation_rate ∧ (-15:ℚ) ≤ -42/5 := by
  have h := adapt_respects_clamps tunerLowHit 0
    (by norm_num [tunerLowHit])
    (by norm_num [tunerLowHit, MemoryConfig.default])
    (by norm_num [tunerLowHit, MemoryConfig.default])
    (by norm_num [tunerLowHit, MemoryConfig.default])
    (by norm_num [tunerLowHit, MemoryConfig.default])
  have hmem : ("min_activation", (-42/5 : ℚ)) ∈ (tunerLowHit.adapt 0).1 := by
    norm_num [AdaptiveTuner.adapt, AdaptiveTuner.should_adapt, adaptCore,
      rule1, rule2, rule3, rule4, AdaptiveMetrics.hit_rate,
      AdaptiveMetrics.reward_ratio, AdaptiveMetrics.forget_rate, tunerLowHit,
      MemoryConfig.default, AdaptiveMetrics.init, sup_eq_max, max_def,
      inf_eq_min, min_def, abs_of_nonneg, abs_of_nonpos]
  exact ⟨by norm_num [tunerLowHit],
    (h.1 _ hmem).1 (by norm_num [AdaptiveMetrics.hit_rate, tunerLowHit,
      AdaptiveMetrics.init])⟩

/-! ## Theorems: persistence of co-activation counters (C5) -/

/-- C5: co-activation counters live in the durable `hebbian_links` table,
so after any sequence of recalls the counts recorded by one engine
instance are observable after closing it and reopening a new instance
over the same database. (The model is built from the spec, §3.3/§6:
`engram/store.py` and `engram/hebbian.py` are not under `src/`.) -/
theorem coactivation_counts_survive_reopen (e : EngineInstance)
    (qs : List (List String)) (th : ℕ) :
    get_coactivation_stats (openEngine (closeEngine (engineRun th e qs))).db
      = get_coactivation_stats (engineRun th e qs).db := rfl

/-! ## Lemmas: the sorted pair and map update -/

theorem sortPair_comm (a b : String) : sortPair a b = sortPair b a := by
  unfold sortPair
  by_cases hab : a ≤ b <;> by_cases hba : b ≤ a <;> simp [hab, hba]
  · exact ⟨le_antisymm hab hba, le_antisymm hba hab⟩
  · exact absurd (le_total a b) (by simp [hab, hba])

theorem sortPair_eq_iff {a b c d : String} :
    sortPair a b = sortPair c d ↔ (a = c ∧ b = d) ∨ (a = d ∧ b = c) := by
  constructor
  · intro h
    unfold sortPair at h
    split_ifs at h with h1 h2 h2 <;>
      obtain ⟨h3, h4⟩ := Prod.mk.injEq .. ▸ h <;> subst h3 <;> subst h4
    · exact Or.inl ⟨rfl, rfl⟩
    · exact Or.inr ⟨rfl, rfl⟩
    · exact Or.inr ⟨rfl, rfl⟩
    · exact Or.inl ⟨rfl, rfl⟩
  · rintro (⟨rfl, rfl⟩ | ⟨rfl, rfl⟩)
    · rfl
    · exact sortPair_comm a b

theorem sortPair_fst_snd (a b : String) :
    sortPair a b = (a, b) ∨ sortPair a b = (b, a) := by
  unfold sortPair
  split_ifs <;> simp

theorem upd2_same {α : Type} (f : String → String → α) (a b : String) (v : α) :
    upd2 f a b v a b = v := by
  simp [upd2]

theorem upd2_other {α : Type} (f : String → String → α) (a b : String) (v : α)
    {x y : String} (h : ¬(x = a ∧ y = b)) : upd2 f a b v x y = f x y := by
  simp only [upd2, if_neg h]

/-! ## Lemmas: link creation and the per-pair recall step -/

theorem createLink_coact (s : HebbianState) (a b : String) :
    (createHebbianLink s a b).coact = s.coact := by
  unfold createHebbianLink
  split_ifs <;> rfl

theorem createLink_creates {s : HebbianState} {a b : String} (hne : a ≠ b)
    (hab : s.links a b = none) (hba : s.links b a = none) :
    (createHebbianLink s a b).links a b = some 1 ∧
    (createHebbianLink s a b).links b a = some 1 := by
  have hne' : b ≠ a := hne.symm
  simp only [createHebbianLink, hab, hba]
  constructor <;> simp [upd2, hne, hne', hab, hba]

theorem coactPair_coact (s : HebbianState) (a b : String) (q : String × String) :
    (coactPair s a b).coact q.1 q.2 =
      if sortPair a b = q then s.coact q.1 q.2 + 1 else s.coact q.1 q.2 := by
  have hco : (coactPair s a b).coact =
      upd2 s.coact (sortPair a b).1 (sortPair a b).2
        (s.coact (sortPair a b).1 (sortPair a b).2 + 1) := by
    simp only [coactPair]
    split_ifs
    · rw [createLink_coact]
    · rfl
  rw [hco]
  by_cases h : sortPair a b = q
  · rw [if_pos h, h, upd2_same]
  · rw [if_neg h]
    refine upd2_other _ _ _ _ fun hq => h ?_
    rw [Prod.ext_iff]
    exact ⟨hq.1.symm, hq.2.symm⟩

theorem coactPair_links_other {s : HebbianState} {a b x y : String}
    (h : sortPair a b ≠ sortPair x y) :
    (coactPair s a b).links x y = s.links x y := by
  have h1 : ¬(x = a ∧ y = b) := fun hq => h (by rw [hq.1, hq.2])
  have h2 : ¬(x = b ∧ y = a) := fun hq => h (by
    rw [hq.1, hq.2]
    exact sortPair_comm a b)
  simp only [coactPair, createHebbianLink]
  split_ifs <;> simp [upd2, h1, h2]

/-- Under the invariant, the step for a distinct pair sets both link rows
to strength 1.0 exactly when the incremented counter equals 3, and leaves
them untouched otherwise. -/
theorem coactPair_links_at {s : HebbianState} (hInv : LinkInv s)
    {a b : String} (hne : a ≠ b) :
    (coactPair s a b).links a b =
      (if s.coact (sortPair a b).1 (sortPair a b).2 + 1 = 3 then some 1
       else s.links a b) ∧
    (coactPair s a b).links b a =
      (if s.coact (sortPair a b).1 (sortPair a b).2 + 1 = 3 then some 1
       else s.links b a) := by
  simp only [coactPair]
  split_ifs with h3
  · have hab : s.links a b = none := by
      cases hopt : s.links a b with
      | none => rfl
      | some v =>
        have hge := hInv.2.2.2 a b (by rw [hopt]; rfl)
        omega
    have hba : s.links b a = (none : Option ℚ) := (hInv.1 b a).trans hab
    exact createLink_creates hne hab hba
  · exact ⟨rfl, rfl⟩

/-! ## Lemmas: folding the per-pair step, and `combinations2` counting -/

theorem foldPairs_cons (s : HebbianState) (p : String × String)
    (L : List (String × String)) :
    foldPairs s (p :: L) = foldPairs (coactPair s p.1 p.2) L := rfl

theorem foldPairs_coact (L : List (String × String)) (s : HebbianState)
    (q : String × String) :
    (foldPairs s L).coact q.1 q.2 =
      s.coact q.1 q.2 + (L.countP fun p => decide (sortPair p.1 p.2 = q)) := by
  induction L generalizing s with
  | nil => simp [foldPairs]
  | cons p L ih =>
    rw [foldPairs_cons, ih, coactPair_coact, List.countP_cons]
    by_cases h : sortPair p.1 p.2 = q <;> simp [h] <;> omega

theorem foldPairs_links_other (L : List (String × String)) (s : HebbianState)
    {x y : String} (h : ∀ p ∈ L, sortPair p.1 p.2 ≠ sortPair x y) :
    (foldPairs s L).links x y = s.links x y := by
  induction L generalizing s with
  | nil => rfl
  | cons p L ih =>
    rw [foldPairs_cons, ih _ fun p' hp' => h p' (List.mem_cons_of_mem _ hp'),
      coactPair_links_other (h p (List.mem_cons_self _ _))]

theorem mem_combinations2 {ids : List String} {p : String × String}
    (h : p ∈ combinations2 ids) : p.1 ∈ ids ∧ p.2 ∈ ids := by
  induction ids with
  | nil => simp [combinations2] at h
  | cons x xs ih =>
    simp only [combinations2, List.mem_append, List.mem_map] at h
    rcases h with ⟨y, hy, rfl⟩ | h
    · exact ⟨List.mem_cons_self _ _, List.mem_cons_of_mem _ hy⟩
    · exact ⟨List.mem_cons_of_mem _ (ih h).1, List.mem_cons_of_mem _ (ih h).2⟩

theorem combinations2_ne {ids : List String} (hnd : ids.Nodup) :
    ∀ p ∈ combinations2 ids, p.1 ≠ p.2 := by
  induction ids with
  | nil => simp [combinations2]
  | cons x xs ih =>
    intro p hp
    obtain ⟨hx, hnd'⟩ := List.nodup_cons.mp hnd
    simp only [combinations2, List.mem_append, List.mem_map] at hp
    rcases hp with ⟨y, hy, rfl⟩ | hp
    · intro hxy
      have hxeq : x = y := hxy
      exact hx (hxeq ▸ hy)
    · exact ih hnd' p hp

theorem countP_eq_one_of_nodup_mem {xs : List String} (hnd : xs.Nodup)
    {j : String} (hj : j ∈ xs) (pred : String → Bool)
    (hpred : ∀ y, pred y = true ↔ y = j) : xs.countP pred = 1 := by
  induction xs with
  | nil => simp at hj
  | cons x xs ih =>
    obtain ⟨hx, hnd'⟩ := List.nodup_cons.mp hnd
    rw [List.countP_cons]
    rcases List.mem_cons.mp hj with rfl | hjx
    · have hzero : xs.countP pred = 0 := by
        rw [List.countP_eq_zero]
        intro y hy hpy
        exact hx ((hpred y).mp hpy ▸ hy)
      simp [hzero, (hpred j).mpr rfl]
    · have hpx : ¬ pred x = true := fun hpx =>
        hx (((hpred x).mp hpx) ▸ hjx)
      simp [ih hnd' hjx, hpx]

theorem countP_combinations2_zero {ids : List String} {q : String × String}
    (h : ∀ p ∈ combinations2 ids, sortPair p.1 p.2 ≠ q) :
    ((combinations2 ids).countP fun p => decide (sortPair p.1 p.2 = q)) = 0 := by
  rw [List.countP_eq_zero]
  intro p hp
  simpa using h p hp

theorem countP_combinations2_one {ids : List String} (hnd : ids.Nodup)
    {i j : String} (hi : i ∈ ids) (hj : j ∈ ids) (hij : i ≠ j) :
    ((combinations2 ids).countP
      fun p => decide (sortPair p.1 p.2 = sortPair i j)) = 1 := by
  induction ids with
  | nil => simp at hi
  | cons x xs ih =>
    obtain ⟨hx, hnd'⟩ := List.nodup_cons.mp hnd
    have hhead : ∀ (u : String), u ∈ xs →
        ((xs.map fun y => ((x : String), y)).countP
          fun p => decide (sortPair p.1 p.2 = sortPair x u)) = 1 := by
      intro u hu
      rw [List.countP_map]
      refine countP_eq_one_of_nodup_mem hnd' hu _ fun y => ?_
      simp only [Function.comp_apply, decide_eq_true_eq]
      constructor
      · intro hyq
        rcases sortPair_eq_iff.mp hyq with ⟨-, h2⟩ | ⟨h1, h2⟩
        · exact h2
        · exact absurd (h1 ▸ hu) hx
      · rintro rfl
        rfl
    have htail0 : ∀ (u : String), u ∈ xs →
        ((combinations2 xs).countP
          fun p => decide (sortPair p.1 p.2 = sortPair x u)) = 0 := by
      intro u hu
      refine countP_combinations2_zero fun p hp hq => ?_
      obtain ⟨hp1, hp2⟩ := mem_combinations2 hp
      rcases sortPair_eq_iff.mp hq with ⟨h1, -⟩ | ⟨-, h2⟩
      · exact hx (h1 ▸ hp1)
      · exact hx (h2 ▸ hp2)
    simp only [combinations2, List.countP_append]
    rcases List.mem_cons.mp hi with rfl | hixs
    · -- i = x, so j ∈ xs
      have hjxs : j ∈ xs := by
        rcases List.mem_cons.mp hj with rfl | hjxs
        · exact absurd rfl hij
        · exact hjxs
      rw [hhead j hjxs, htail0 j hjxs]
    · rcases List.mem_cons.mp hj with rfl | hjxs
      · -- j = x, i ∈ xs: flip the target pair
        have hcomm : ∀ p : String × String,
            (decide (sortPair p.1 p.2 = sortPair i j)) =
              (decide (sortPair p.1 p.2 = sortPair j i)) := by
          intro p
          rw [sortPair_comm i j]
        simp only [hcomm]
        rw [hhead i hixs, htail0 i hixs]
      · -- both in the tail
        have hhead0 : ((xs.map fun y => ((x : String), y)).countP
            fun p => decide (sortPair p.1 p.2 = sortPair i j)) = 0 := by
          rw [List.countP_map, List.countP_eq_zero]
          intro y hy hpy
          simp only [Function.comp_apply, decide_eq_true_eq] at hpy
          rcases sortPair_eq_iff.mp hpy with ⟨h1, -⟩ | ⟨h1, -⟩
          · exact hx (h1 ▸ hixs)
          · exact hx (h1 ▸ hjxs)
        rw [hhead0, ih hnd' hixs hjxs]

/-! ## Lemmas: the link invariant is preserved -/

theorem LinkInv_coactPair {s : HebbianState} (hInv : LinkInv s)
    {a b : String} (hne : a ≠ b) : LinkInv (coactPair s a b) := by
  obtain ⟨hsym, hself, hstr, hcnt⟩ := hInv
  have hat := coactPair_links_at ⟨hsym, hself, hstr, hcnt⟩ hne
  refine ⟨?_, ?_, ?_, ?_⟩
  · intro x y
    by_cases hq : sortPair a b = sortPair x y
    · rcases sortPair_eq_iff.mp hq with ⟨ha, hb⟩ | ⟨ha, hb⟩
      · subst ha
        subst hb
        rw [hat.1, hat.2, hsym a b]
      · subst ha
        subst hb
        rw [hat.1, hat.2, hsym a b]
    · have hq' : sortPair a b ≠ sortPair y x := by
        rw [sortPair_comm y x]
        exact hq
      rw [coactPair_links_other hq, coactPair_links_other hq', hsym x y]
  · intro x y hsome
    by_cases hq : sortPair a b = sortPair x y
    · rcases sortPair_eq_iff.mp hq with ⟨ha, hb⟩ | ⟨ha, hb⟩
      · subst ha
        subst hb
        exact hne
      · subst ha
        subst hb
        exact hne.symm
    · rw [coactPair_links_other hq] at hsome
      exact hself x y hsome
  · intro x y v hv
    by_cases hq : sortPair a b = sortPair x y
    · rcases sortPair_eq_iff.mp hq with ⟨ha, hb⟩ | ⟨ha, hb⟩
      · subst ha
        subst hb
        rw [hat.1] at hv
        split_ifs at hv
        · injection hv with hv
          exact hv.symm
        · exact hstr a b v hv
      · subst ha
        subst hb
        rw [hat.2] at hv
        split_ifs at hv
        · injection hv with hv
          exact hv.symm
        · exact hstr b a v hv
    · rw [coactPair_links_other hq] at hv
      exact hstr x y v hv
  · intro x y hsome
    have hcoact := coactPair_coact s a b (sortPair x y)
    by_cases hq : sortPair a b = sortPair x y
    · rw [hcoact, if_pos hq]
      rcases sortPair_eq_iff.mp hq with ⟨ha, hb⟩ | ⟨ha, hb⟩
      · subst ha
        subst hb
        rw [hat.1] at hsome
        split_ifs at hsome with h3
        · omega
        · have := hcnt a b hsome
          omega
      · subst ha
        subst hb
        rw [hat.2] at hsome
        split_ifs at hsome with h3
        · rw [sortPair_comm b a]
          omega
        · have := hcnt b a hsome
          omega
    · rw [hcoact, if_neg hq]
      rw [coactPair_links_other hq] at hsome
      exact hcnt x y hsome

theorem LinkInv_init : LinkInv initState := by
  refine ⟨fun i j => rfl, fun i j h => ?_, fun i j v h => ?_, fun i j h => ?_⟩ <;>
    simp [initState] at h

theorem LinkInv_foldPairs (L : List (String × String)) (s : HebbianState)
    (hInv : LinkInv s) (hd : ∀ p ∈ L, p.1 ≠ p.2) : LinkInv (foldPairs s L) := by
  induction L generalizing s with
  | nil => exact hInv
  | cons p L ih =>
    rw [foldPairs_cons]
    exact ih _ (LinkInv_coactPair hInv (hd p (List.mem_cons_self _ _)))
      fun p' hp' => hd p' (List.mem_cons_of_mem _ hp')

theorem Reachable_LinkInv {s : HebbianState} (h : Reachable s) : LinkInv s := by
  induction h with
  | init => exact LinkInv_init
  | step ids hnd hs ih => exact LinkInv_foldPairs _ _ ih (combinations2_ne hnd)

/-- Folding over a pair list that mentions the unordered pair of `i` and
`j` exactly once: both link rows for the pair come out as strength 1.0
exactly when the pre-state counter was one below the threshold, and are
untouched otherwise. -/
theorem foldPairs_threshold {i j : String} :
    ∀ (L : List (String × String)) (s : HebbianState), LinkInv s →
    (∀ p ∈ L, p.1 ≠ p.2) →
    (L.countP fun p => decide (sortPair p.1 p.2 = sortPair i j)) = 1 →
    ((foldPairs s L).links i j =
      if s.coact (sortPair i j).1 (sortPair i j).2 + 1 = 3 then some 1
      else s.links i j) ∧
    ((foldPairs s L).links j i =
      if s.coact (sortPair i j).1 (sortPair i j).2 + 1 = 3 then some 1
      else s.links j i) := by
  intro L
  induction L with
  | nil =>
    intro s _ _ h1
    simp at h1
  | cons p L ih =>
    intro s hInv hd h1
    rw [List.countP_cons] at h1
    have hpd : p.1 ≠ p.2 := hd p (List.mem_cons_self _ _)
    by_cases hp : sortPair p.1 p.2 = sortPair i j
    · have hL0 : (L.countP fun p => decide (sortPair p.1 p.2 = sortPair i j)) = 0 := by
        rw [if_pos (by simpa using hp)] at h1
        omega
      have hnone : ∀ p' ∈ L, sortPair p'.1 p'.2 ≠ sortPair i j := by
        rw [List.countP_eq_zero] at hL0
        intro p' hp'
        simpa using hL0 p' hp'
      have hnone' : ∀ p' ∈ L, sortPair p'.1 p'.2 ≠ sortPair j i := by
        intro p' hp'
        rw [sortPair_comm j i]
        exact hnone p' hp'
      have hat := coactPair_links_at hInv hpd
      rw [foldPairs_cons, foldPairs_links_other L _ hnone,
        foldPairs_links_other L _ hnone']
      rcases sortPair_eq_iff.mp hp with ⟨h1', h2'⟩ | ⟨h1', h2'⟩
      · rw [h1', h2'] at hat ⊢
        exact ⟨hat.1, hat.2⟩
      · rw [h1', h2'] at hat ⊢
        rw [sortPair_comm j i] at hat
        exact ⟨hat.2, hat.1⟩
    · have hL1 : (L.countP fun p => decide (sortPair p.1 p.2 = sortPair i j)) = 1 := by
        rw [if_neg (by simpa using hp)] at h1
        omega
      have hInv' := LinkInv_coactPair hInv hpd
      have hih := ih (coactPair s p.1 p.2) hInv'
        (fun p' hp' => hd p' (List.mem_cons_of_mem _ hp')) hL1
      have hco := coactPair_coact s p.1 p.2 (sortPair i j)
      rw [if_neg hp] at hco
      have hl1 := coactPair_links_other (s := s) (a := p.1) (b := p.2)
        (x := i) (y := j) hp
      have hl2 := coactPair_links_other (s := s) (a := p.1) (b := p.2)
        (x := j) (y := i) (by
          rw [sortPair_comm j i]
          exact hp)
      rw [foldPairs_cons]
      rw [hco, hl1, hl2] at hih
      exact hih

/-! ## Theorems: the Hebbian prototype (C1, C7, C8) -/

/-- C8: the co-activation counters incremented by a recall are exactly
those of the unordered pairs of distinct returned ids (each by one), and
a recall returning zero or one result leaves the whole Hebbian state —
counters and links — unchanged, so in particular forms no link. -/
theorem recall_coactivation_exact (s : HebbianState) (ids : List String)
    (hnd : ids.Nodup) :
    (∀ i j, i ∈ ids → j ∈ ids → i ≠ j →
      (recallStep s ids).coact (sortPair i j).1 (sortPair i j).2 =
        s.coact (sortPair i j).1 (sortPair i j).2 + 1) ∧
    (∀ x y, (∀ i j, i ∈ ids → j ∈ ids → i ≠ j → sortPair i j ≠ (x, y)) →
      (recallStep s ids).coact x y = s.coact x y) ∧
    (ids.length ≤ 1 → recallStep s ids = s) := by
  refine ⟨?_, ?_, ?_⟩
  · intro i j hi hj hij
    rw [show recallStep s ids = foldPairs s (combinations2 ids) from rfl,
      foldPairs_coact, countP_combinations2_one hnd hi hj hij]
  · intro x y hxy
    have h0 : ((combinations2 ids).countP
        fun p => decide (sortPair p.1 p.2 = (x, y))) = 0 := by
      refine countP_combinations2_zero fun p hp => ?_
      obtain ⟨hp1, hp2⟩ := mem_combinations2 hp
      exact hxy p.1 p.2 hp1 hp2 (combinations2_ne hnd p hp)
    have hfc := foldPairs_coact (combinations2 ids) s (x, y)
    rw [h0] at hfc
    simpa using hfc
  · intro hlen
    cases ids with
    | nil => rfl
    | cons x xs =>
      cases xs with
      | nil => rfl
      | cons y ys => simp at hlen

/-- Witness for C8: one recall of two fresh memories gives their pair
counter 1, and a single-result recall changes nothing. -/
theorem recall_coactivation_exact_witness :
    (recallStep initState ["a", "b"]).coact
      (sortPair "a" "b").1 (sortPair "a" "b").2 = 1 ∧
    recallStep initState ["a"] = initState := by
  constructor
  · have h := (recall_coactivation_exact initState ["a", "b"] (by decide)).1
      "a" "b" (by decide) (by decide) (by decide)
    simpa [initState] using h
  · exact (recall_coactivation_exact initState ["a"] (by decide)).2.2 (by simp)

/-- C7: in every reachable state of the prototype's `hebbian_links`
store, every link row `(i, j, s)` has the reverse row `(j, i, s)` with
the same strength, and no row links a memory to itself. -/
theorem hebbian_links_bidirectional_no_self (s : HebbianState)
    (hreach : Reachable s) :
    ∀ i j v, s.links i j = some v → s.links j i = some v ∧ i ≠ j := by
  have hInv := Reachable_LinkInv hreach
  intro i j v hv
  exact ⟨(hInv.1 j i).trans hv, hInv.2.1 i j (by rw [hv]; rfl)⟩

/-- C1: for a pair of distinct ids whose counter a recall increments,
both link rows appear with strength 1.0 exactly when the counter reaches
the threshold 3; a recall that leaves the counter at any other value
leaves both rows of that pair untouched. -/
theorem hebbian_link_forms_at_threshold (s : HebbianState) (ids : List String)
    (i j : String) (hreach : Reachable s) (hnd : ids.Nodup)
    (hi : i ∈ ids) (hj : j ∈ ids) (hij : i ≠ j) :
    ((recallStep s ids).coact (sortPair i j).1 (sortPair i j).2 = 3 →
      (recallStep s ids).links i j = some 1 ∧
      (recallStep s ids).links j i = some 1) ∧
    ((recallStep s ids).coact (sortPair i j).1 (sortPair i j).2 ≠ 3 →
      (recallStep s ids).links i j = s.links i j ∧
      (recallStep s ids).links j i = s.links j i) := by
  have hInv := Reachable_LinkInv hreach
  have hthr := foldPairs_threshold (combinations2 ids) s hInv
    (combinations2_ne hnd) (countP_combinations2_one hnd hi hj hij)
  have hco : (recallStep s ids).coact (sortPair i j).1 (sortPair i j).2
      = s.coact (sortPair i j).1 (sortPair i j).2 + 1 := by
    rw [show recallStep s ids = foldPairs s (combinations2 ids) from rfl,
      foldPairs_coact, countP_combinations2_one hnd hi hj hij]
  obtain ⟨ha, hb⟩ := hthr
  constructor
  · intro h3
    rw [hco] at h3
    rw [if_pos h3] at ha hb
    exact ⟨ha, hb⟩
  · intro h3
    rw [hco] at h3
    rw [if_neg h3] at ha hb
    exact ⟨ha, hb⟩

/-- One recall returning `"a"` and `"b"` bumps their pair counter by
exactly one. -/
theorem coact_step_ab (s : HebbianState) :
    (recallStep s ["a", "b"]).coact (sortPair "a" "b").1 (sortPair "a" "b").2 =
      s.coact (sortPair "a" "b").1 (sortPair "a" "b").2 + 1 := by
  rw [show recallStep s ["a", "b"] = foldPairs s (combinations2 ["a", "b"]) from rfl,
    foldPairs_coact,
    countP_combinations2_one (by decide) (by decide) (by decide) (by decide)]

/-- Witness for C1: after two co-recalls of `"a"` and `"b"`, a third
recall drives the counter to 3 and both link rows appear with
strength 1.0. -/
theorem hebbian_link_forms_at_threshold_witness :
    (recallStep hebbianTwice ["a", "b"]).links "a" "b" = some 1 ∧
    (recallStep hebbianTwice ["a", "b"]).links "b" "a" = some 1 := by
  have hnd : (["a", "b"] : List String).Nodup := by decide
  have hreach2 : Reachable hebbianTwice :=
    Reachable.step ["a", "b"] hnd (Reachable.step ["a", "b"] hnd Reachable.init)
  have h3 : (recallStep hebbianTwice ["a", "b"]).coact
      (sortPair "a" "b").1 (sortPair "a" "b").2 = 3 := by
    rw [show recallStep hebbianTwice ["a", "b"]
        = recallStep (recallStep (recallStep initState ["a", "b"]) ["a", "b"]) ["a", "b"]
        from rfl, coact_step_ab, coact_step_ab, coact_step_ab]
    rfl
  exact (hebbian_link_forms_at_threshold hebbianTwice ["a", "b"] "a" "b"
    hreach2 hnd (by decide) (by decide) (by decide)).1 h3

/-- The threshold state reached after three co-recalls carries both link
rows at strength 1.0. -/
theorem hebbianThrice_links :
    hebbianThrice.links "a" "b" = some 1 ∧
    hebbianThrice.links "b" "a" = some 1 := by
  have hnd : (["a", "b"] : List String).Nodup := by decide
  have hreach2 : Reachable hebbianTwice :=
    Reachable.step ["a", "b"] hnd (Reachable.step ["a", "b"] hnd Reachable.init)
  have hInv2 := Reachable_LinkInv hreach2
  have hthr := foldPairs_threshold (i := "a") (j := "b")
    (combinations2 ["a", "b"]) hebbianTwice hInv2 (combinations2_ne hnd)
    (countP_combinations2_one hnd (by decide) (by decide) (by decide))
  have h2 : hebbianTwice.coact (sortPair "a" "b").1 (sortPair "a" "b").2 = 2 := by
    rw [show hebbianTwice = recallStep (recallStep initState ["a", "b"]) ["a", "b"]
      from rfl, coact_step_ab, coact_step_ab]
    rfl
  rw [h2] at hthr
  simpa using hthr

/-- Witness for C7: in the reachable state with a link between `"a"` and
`"b"`, the reverse row carries the same strength and the ids differ. -/
theorem hebbian_links_bidirectional_witness :
    hebbianThrice.links "b" "a" = some 1 ∧ "a" ≠ "b" := by
  have hnd : (["a", "b"] : List String).Nodup := by decide
  have hreach3 : Reachable hebbianThrice :=
    Reachable.step ["a", "b"] hnd (Reachable.step ["a", "b"] hnd
      (Reachable.step ["a", "b"] hnd Reachable.init))
  exact hebbian_links_bidirectional_no_self hebbianThrice hreach3 "a" "b" 1
    hebbianThrice_links.1

end Engram
